import Mathlib

/-!
Shallow embedding of the dataset-construction and evaluation core of the
Phenotype repository: `Codes/dataset.py` (class `DatasetProvider`) and the
evaluation tail of `Codes/cnn.py`.  File I/O is abstracted away: a corpus is
a list of file contents (or of (file name, contents) pairs), a pandas table
is a list of rows whose nullable cells are `Option Str`, and Python dicts
and Counters become insertion-ordered association lists.  A Python string is
modelled as its list of characters (`Str`), so that every definition
evaluates inside the kernel.
-/

/-- A Python string, modelled as its list of characters. -/
abbrev Str := List Char

/-- Worker for Python `str.split()`: `acc` holds the finished tokens, `cur`
the token being built; whitespace ends the current token, and empty tokens
are never emitted. -/
def splitWsGo : List Str → Str → Str → List Str
  | acc, cur, [] => if cur = [] then acc else acc ++ [cur]
  | acc, cur, c :: rest =>
    if c.isWhitespace then
      if cur = [] then splitWsGo acc [] rest else splitWsGo (acc ++ [cur]) [] rest
    else splitWsGo acc (cur ++ [c]) rest

/-- Python `str.split()` with no argument: split on runs of whitespace,
producing no empty tokens. -/
def pySplit (text : Str) : List Str := splitWsGo [] [] text

/-- Python `str.isalpha()`: nonempty and every character alphabetic. -/
def pyIsAlpha (s : Str) : Bool :=
  !s.isEmpty && s.all Char.isAlpha

/-- Python `str.lower()` (ASCII model, matching Lean's `Char.toLower`). -/
def pyLower (s : Str) : Str := s.map Char.toLower

/-- `DatasetProvider.read_tokens` (dataset.py lines 70-84) with the file
contents passed directly: lowercase the text, split on whitespace, keep only
all-alphabetic tokens, and return `none` when the surviving token list is
longer than `max_tokens_in_file`. -/
def read_tokens (text : Str) (max_tokens_in_file : Nat) : Option (List Str) :=
  let tokens := (pySplit (pyLower text)).filter pyIsAlpha
  if tokens.length > max_tokens_in_file then none else some tokens

/-- `DatasetProvider.read_cuis` (dataset.py lines 86-95): split on whitespace
with no case folding and no alphabetic filter, with the same length cutoff. -/
def read_cuis (text : Str) (max_tokens_in_file : Nat) : Option (List Str) :=
  let tokens := pySplit text
  if tokens.length > max_tokens_in_file then none else some tokens

/-- One `Counter.update` step for a single token: bump the token's count,
keeping first-insertion order like a Python dict. -/
def counterUpdate1 : List (Str × Nat) → Str → List (Str × Nat)
  | [], t => [(t, 1)]
  | (k, n) :: rest, t =>
    if k = t then (k, n + 1) :: rest else (k, n) :: counterUpdate1 rest t

/-- `Counter.update(tokens)`. -/
def counterUpdate (c : List (Str × Nat)) (ts : List Str) : List (Str × Nat) :=
  ts.foldl counterUpdate1 c

/-- Python dict assignment `d[k] = v`: overwrite in place, or append a new
key at the end (insertion order). -/
def dictSet {κ α : Type} [DecidableEq κ] : List (κ × α) → κ → α → List (κ × α)
  | [], k, v => [(k, v)]
  | (k0, v0) :: rest, k, v =>
    if k0 = k then (k0, v) :: rest else (k0, v0) :: dictSet rest k v

/-- Python dict lookup `d.get(k)`: the value at the first matching key. -/
def dictGet {κ α : Type} [DecidableEq κ] : List (κ × α) → κ → Option α
  | [], _ => none
  | (k0, v) :: rest, k => if k0 = k then some v else dictGet rest k

/-- The count a `Counter` reports for a token (0 when absent). -/
def cnt (c : List (Str × Nat)) (t : Str) : Nat :=
  (dictGet c t).getD 0

/-- The comparison `Counter.most_common()` sorts by: descending count. -/
def cmpDesc (p q : Str × Nat) : Prop := q.2 ≤ p.2

instance : DecidableRel cmpDesc := fun p q => inferInstanceAs (Decidable (q.2 ≤ p.2))

instance : IsTotal (Str × Nat) cmpDesc := ⟨fun a b => le_total b.2 a.2⟩

instance : IsTrans (Str × Nat) cmpDesc := ⟨fun _ _ _ h1 h2 => le_trans h2 h1⟩

/-- `Counter.most_common()`: a stable sort of the counter's items by
descending count (CPython uses `sorted(..., reverse=True)`, which is stable,
so ties keep first-insertion order). -/
def most_common (c : List (Str × Nat)) : List (Str × Nat) :=
  List.insertionSort cmpDesc c

/-- The shared id-assignment loop of `make_and_write_token_alphabet`
(dataset.py lines 114-121) and `make_code_alphabet` (lines 158-163): walk
the sorted counts, give the next consecutive id to every entry whose count
is strictly above `minFreq`. -/
def assignIds (d : List (Str × Nat)) (idx minFreq : Nat) :
    List (Str × Nat) → List (Str × Nat)
  | [] => d
  | (t, c) :: rest =>
    if c > minFreq then assignIds (dictSet d t idx) (idx + 1) minFreq rest
    else assignIds d idx minFreq rest

/-- The `if self.use_cuis ... read_cuis ... else ... read_tokens` dispatch
shared by `make_and_write_token_alphabet` (lines 103-107) and `load`
(lines 174-178). -/
def readFn (use_cuis : Bool) (text : Str) (max_tokens_in_file : Nat) :
    Option (List Str) :=
  if use_cuis then read_cuis text max_tokens_in_file
  else read_tokens text max_tokens_in_file

/-- Corpus-wide token counting (dataset.py lines 100-110): each file is read
with `read_cuis` or `read_tokens`; rejected (over-long) files contribute
nothing. -/
def corpusCounts (corpus : List Str) (use_cuis : Bool) (max_tokens_in_file : Nat) :
    List (Str × Nat) :=
  corpus.foldl (fun c text =>
    match readFn use_cuis text max_tokens_in_file with
    | none => c
    | some toks => counterUpdate c toks) []

/-- `make_and_write_token_alphabet` (dataset.py lines 97-125), minus the file
and pickle output: first `token2int['oov_word'] = 0`, then ids 1, 2, ... in
`most_common` order for tokens with count strictly above `min_token_freq`. -/
def make_and_write_token_alphabet (corpus : List Str) (use_cuis : Bool)
    (max_tokens_in_file min_token_freq : Nat) : List (Str × Nat) :=
  assignIds [("oov_word".data, 0)] 1 min_token_freq
    (most_common (corpusCounts corpus use_cuis max_tokens_in_file))

/-- Python `set.add` on a set modelled as a duplicate-free list in insertion
order. -/
def setAdd (l : List Str) (c : Str) : List Str :=
  if c ∈ l then l else l ++ [c]

/-- The body of `index_codes` for one non-null row: ensure the subject has an
entry and add the code to its set (dataset.py lines 142-145). -/
def addCode : List (Str × List Str) → Str → Str → List (Str × List Str)
  | [], s, c => [(s, [c])]
  | (k, v) :: rest, s, c =>
    if k = s then (k, setAdd v c) :: rest else (k, v) :: addCode rest s c

/-- `index_codes` (dataset.py lines 127-145): rows are (subject, code) cell
pairs where `none` models a pandas null.  Null rows are skipped; otherwise
`<pfx>_<code[0:num_digits]>` is added to the subject's code set.  Python's
slice `code[0:num_digits]` never fails; `List.take` likewise returns the
whole string when it is shorter than `num_digits`. -/
def index_codes (m : List (Str × List Str))
    (rows : List (Option Str × Option Str)) (pfx : Str) (num_digits : Nat) :
    List (Str × List Str) :=
  rows.foldl (fun m row =>
    match row with
    | (none, _) => m
    | (some _, none) => m
    | (some s, some c) => addCode m s (pfx ++ "_".data ++ c.take num_digits)) m

/-- The code counter of `make_code_alphabet` (dataset.py lines 151-153):
update once per subject with that subject's code set, so each code is
counted once per distinct subject holding it. -/
def codeCounter (subj2codes : List (Str × List Str)) : List (Str × Nat) :=
  subj2codes.foldl (fun c p => counterUpdate c p.2) []

/-- The number of distinct subjects holding a code: one aggregation entry is
one subject. -/
def numSubjectsHolding (subj2codes : List (Str × List Str)) (code : Str) : Nat :=
  (subj2codes.filter (fun p => decide (code ∈ p.2))).length

/-- `make_code_alphabet` (dataset.py lines 147-163), minus the file output:
ids 0, 1, 2, ... in `most_common` order for codes held by strictly more than
`min_examples_per_code` distinct subjects; no sentinel entry. -/
def make_code_alphabet (subj2codes : List (Str × List Str))
    (min_examples_per_code : Nat) : List (Str × Nat) :=
  assignIds [] 0 min_examples_per_code (most_common (codeCounter subj2codes))

/-- Python `file.split('.')[0]`: the base name before the first dot. -/
def subjOf (file : Str) : Str := file.takeWhile (fun c => c != '.')

/-- The multi-hot label vector of `load` (dataset.py lines 189-193):
`[0] * len(code2int)`, then set position `code2int[c]` to 1 for each of the
subject's codes that has an id. -/
def mkCodeVec (code2int : List (Str × Nat)) (subjCodes : List Str) : List Nat :=
  subjCodes.foldl (fun vec c =>
    match dictGet code2int c with
    | some i => vec.set i 1
    | none => vec) (List.replicate code2int.length 0)

/-- Token lookup at vectorization time (dataset.py lines 206-210): a token
absent from `token2int` gets `token2int['oov_word']`.  The `getD 0` default
is unreachable whenever the `oov_word` key exists, as the builder
guarantees. -/
def mapToken (token2int : List (Str × Nat)) (t : Str) : Nat :=
  match dictGet token2int t with
  | some i => i
  | none => (dictGet token2int "oov_word".data).getD 0

/-- Python `set(file_ngram_list)` iterated: modelled as first-occurrence
deduplication (set iteration order is unspecified; only membership matters
downstream). -/
def dedupFirst (l : List Str) : List Str := l.foldl setAdd []

/-- The body of `load`'s per-file loop (dataset.py lines 173-215): `none`
means the file is skipped by one of the `continue` branches. -/
def processFile (subj2codes : List (Str × List Str))
    (token2int code2int : List (Str × Nat)) (use_cuis : Bool)
    (max_tokens_in_file : Nat) (maxlen : Option Nat) (tokens_as_set : Bool)
    (file text : Str) : Option (List Nat × List Nat) :=
  match readFn use_cuis text max_tokens_in_file with
  | none => none
  | some file_ngram_list =>
    match dictGet subj2codes (subjOf file) with
    | none => none
    | some subjCodes =>
      if subjCodes.length = 0 then none
      else
        let code_vec := mkCodeVec code2int subjCodes
        if code_vec.sum = 0 then none
        else
          let toks := if tokens_as_set then dedupFirst file_ngram_list else file_ngram_list
          let ex := toks.map (mapToken token2int)
          let truncated := match maxlen with
            | none => ex
            | some m => if ex.length > m then ex.take m else ex
          some (truncated, code_vec)

/-- One iteration of `load`'s loop: a skipped file leaves the accumulated
(examples, codes) untouched, a retained file appends to both. -/
def loadStep (subj2codes : List (Str × List Str))
    (token2int code2int : List (Str × Nat)) (use_cuis : Bool)
    (max_tokens_in_file : Nat) (maxlen : Option Nat) (tokens_as_set : Bool)
    (acc : List (List Nat) × List (List Nat)) (f : Str × Str) :
    List (List Nat) × List (List Nat) :=
  match processFile subj2codes token2int code2int use_cuis max_tokens_in_file
      maxlen tokens_as_set f.1 f.2 with
  | none => acc
  | some ev => (acc.1 ++ [ev.1], acc.2 ++ [ev.2])

/-- `load` (dataset.py lines 165-217): the corpus is a list of
(file name, contents) pairs; returns (examples, codes).  `maxlen = none`
models the `float('inf')` default. -/
def load (corpus : List (Str × Str)) (subj2codes : List (Str × List Str))
    (token2int code2int : List (Str × Nat)) (use_cuis : Bool)
    (max_tokens_in_file : Nat) (maxlen : Option Nat) (tokens_as_set : Bool) :
    List (List Nat) × List (List Nat) :=
  corpus.foldl (loadStep subj2codes token2int code2int use_cuis max_tokens_in_file
    maxlen tokens_as_set) ([], [])

/-- cnn.py lines 168-170: `distribution[distribution < 0.5] = 0` followed by
`distribution[distribution >= 0.5] = 1`, on a matrix of probabilities
(each float is embedded as the rational it denotes; `0.5` is exact in
binary floating point, so the comparisons carry over exactly). -/
def thresholdMatrix (m : List (List ℚ)) : List (List ℚ) :=
  let m1 := m.map (List.map (fun x => if x < 1/2 then 0 else x))
  m1.map (List.map (fun x => if x ≥ 1/2 then 1 else x))

/-- cnn.py line 182: `int2code = dict((value, key) for key, value in
code2int.items())`. -/
def int2code (code2int : List (Str × Nat)) : List (Nat × Str) :=
  code2int.foldl (fun acc p => dictSet acc p.2 p.1) []

/-- cnn.py lines 181-186: the results file as a list of lines.  `fmt`
renders a score the way Python's `%s` would; `getD []` stands for the
`KeyError` that cannot occur when every label index has a code. -/
def writeResults (code2int : List (Str × Nat)) (fmt : ℚ → Str)
    (macroF1 : ℚ) (f1_scores : List ℚ) : List Str :=
  ("macro".data ++ "|".data ++ fmt macroF1) ::
    f1_scores.enum.map (fun p =>
      (dictGet (int2code code2int) p.1).getD [] ++ "|".data ++ fmt p.2)

/-- Pair each entry of an association list with consecutive ids starting at
`i` (the normal form of `assignIds` on fresh keys). -/
def enumFrom (i : Nat) : List (Str × Nat) → List (Str × Nat)
  | [] => []
  | p :: rest => (p.1, i) :: enumFrom (i + 1) rest

example : pySplit " ab  cd9 ".data = ["ab".data, "cd9".data] := by decide
example : read_tokens "Ab cd9 EF".data 10 = some ["ab".data, "ef".data] := by decide
example : read_cuis "C001 C002 C001".data 2 = none := by decide
example : make_and_write_token_alphabet ["b a a".data] true 10 0 =
    [("oov_word".data, 0), ("a".data, 1), ("b".data, 2)] := by decide
example : index_codes [] [(some "S1".data, some "250.00".data)] "diag".data 3 =
    [("S1".data, ["diag_250".data])] := by decide
example : make_code_alphabet [("S1".data, ["a".data, "b".data]), ("S2".data, ["b".data])] 1 =
    [("b".data, 0)] := by decide

/-! ### Association-list lemmas -/

theorem dictGet_eq_none_iff {κ α : Type} [DecidableEq κ] (d : List (κ × α)) (k : κ) :
    dictGet d k = none ↔ k ∉ d.map Prod.fst := by
  induction d with
  | nil => simp [dictGet]
  | cons p rest ih =>
    obtain ⟨k0, v0⟩ := p
    by_cases h : k0 = k
    · subst h
      simp [dictGet]
    · simp [dictGet, h, ih, Ne.symm h]

theorem dictGet_mem {κ α : Type} [DecidableEq κ] {d : List (κ × α)} {k : κ} {v : α}
    (h : dictGet d k = some v) : (k, v) ∈ d := by
  induction d with
  | nil => simp [dictGet] at h
  | cons p rest ih =>
    obtain ⟨k0, v0⟩ := p
    by_cases hk : k0 = k
    · subst hk
      simp [dictGet] at h
      simp [h]
    · simp [dictGet, hk] at h
      exact List.mem_cons_of_mem _ (ih h)

theorem mem_dictGet {κ α : Type} [DecidableEq κ] {d : List (κ × α)} {k : κ} {v : α}
    (hnd : (d.map Prod.fst).Nodup) (h : (k, v) ∈ d) : dictGet d k = some v := by
  induction d with
  | nil => simp at h
  | cons p rest ih =>
    obtain ⟨k0, v0⟩ := p
    simp only [List.map_cons, List.nodup_cons] at hnd
    rcases List.mem_cons.mp h with h1 | h1
    · cases h1
      simp [dictGet]
    · have hk : k0 ≠ k := by
        rintro rfl
        exact hnd.1 (List.mem_map.mpr ⟨(k0, v), h1, rfl⟩)
      simp only [dictGet, if_neg hk]
      exact ih hnd.2 h1

theorem value_eq_of_nodup_keys {κ α : Type} [DecidableEq κ] {d : List (κ × α)} {k : κ}
    {v1 v2 : α} (hnd : (d.map Prod.fst).Nodup) (h1 : (k, v1) ∈ d) (h2 : (k, v2) ∈ d) :
    v1 = v2 := by
  have e1 := mem_dictGet hnd h1
  have e2 := mem_dictGet hnd h2
  rw [e1] at e2
  exact (Option.some.injEq .. ▸ e2)

theorem dictSet_fresh {κ α : Type} [DecidableEq κ] {d : List (κ × α)} {k : κ} (v : α)
    (h : k ∉ d.map Prod.fst) : dictSet d k v = d ++ [(k, v)] := by
  induction d with
  | nil => rfl
  | cons p rest ih =>
    obtain ⟨k0, v0⟩ := p
    simp only [List.map_cons, List.mem_cons, not_or] at h
    simp only [dictSet, if_neg (Ne.symm h.1), List.cons_append, ih h.2]

/-! ### Counter lemmas -/

theorem keys_counterUpdate1 (c : List (Str × Nat)) (t : Str) :
    (counterUpdate1 c t).map Prod.fst =
      if t ∈ c.map Prod.fst then c.map Prod.fst else c.map Prod.fst ++ [t] := by
  induction c with
  | nil => simp [counterUpdate1]
  | cons p rest ih =>
    obtain ⟨k, n⟩ := p
    by_cases h : k = t
    · subst h
      simp [counterUpdate1]
    · simp only [counterUpdate1, if_neg h, List.map_cons, ih, List.mem_cons]
      by_cases hm : t ∈ rest.map Prod.fst
      · simp [hm, Ne.symm h]
      · simp [hm, Ne.symm h]

theorem nodup_keys_counterUpdate1 {c : List (Str × Nat)} (t : Str)
    (h : (c.map Prod.fst).Nodup) : ((counterUpdate1 c t).map Prod.fst).Nodup := by
  rw [keys_counterUpdate1]
  by_cases hm : t ∈ c.map Prod.fst
  · simpa [hm]
  · simp only [hm, if_false]
    exact List.Nodup.append h (List.nodup_singleton t) (by simpa using hm)

theorem nodup_keys_counterUpdate {c : List (Str × Nat)} (ts : List Str)
    (h : (c.map Prod.fst).Nodup) : ((counterUpdate c ts).map Prod.fst).Nodup := by
  induction ts generalizing c with
  | nil => exact h
  | cons t ts ih => exact ih (nodup_keys_counterUpdate1 t h)

theorem cnt_counterUpdate1_self (c : List (Str × Nat)) (t : Str) :
    cnt (counterUpdate1 c t) t = cnt c t + 1 := by
  induction c with
  | nil => simp [counterUpdate1, cnt, dictGet]
  | cons p rest ih =>
    obtain ⟨k, n⟩ := p
    simp only [cnt] at ih
    by_cases h : k = t
    · subst h
      simp [counterUpdate1, cnt, dictGet]
    · simp only [counterUpdate1, if_neg h, cnt, dictGet]
      exact ih

theorem cnt_counterUpdate1_other (c : List (Str × Nat)) {t s : Str} (h : s ≠ t) :
    cnt (counterUpdate1 c t) s = cnt c s := by
  induction c with
  | nil => simp [counterUpdate1, cnt, dictGet, Ne.symm h]
  | cons p rest ih =>
    obtain ⟨k, n⟩ := p
    simp only [cnt] at ih
    by_cases hk : k = t
    · subst hk
      simp only [counterUpdate1, if_pos rfl, cnt, dictGet]
      simp [Ne.symm h]
    · simp only [counterUpdate1, if_neg hk, cnt, dictGet]
      by_cases hs : k = s
      · simp [hs]
      · rw [if_neg hs, if_neg hs]
        exact ih

theorem cnt_counterUpdate (c : List (Str × Nat)) (ts : List Str) (t : Str) :
    cnt (counterUpdate c ts) t = cnt c t + ts.count t := by
  induction ts generalizing c with
  | nil => simp [counterUpdate]
  | cons x ts ih =>
    show cnt (counterUpdate (counterUpdate1 c x) ts) t = _
    rw [ih]
    by_cases h : t = x
    · subst h
      rw [cnt_counterUpdate1_self]
      simp [List.count_cons]
      omega
    · rw [cnt_counterUpdate1_other c (h)]
      simp [List.count_cons, h]

/-! ### `enumFrom` and `assignIds` lemmas -/

theorem enumFrom_map_fst (i : Nat) (l : List (Str × Nat)) :
    (enumFrom i l).map Prod.fst = l.map Prod.fst := by
  induction l generalizing i with
  | nil => rfl
  | cons p rest ih => simp [enumFrom, ih]

theorem enumFrom_map_snd (i : Nat) (l : List (Str × Nat)) :
    (enumFrom i l).map Prod.snd = List.range' i l.length := by
  induction l generalizing i with
  | nil => rfl
  | cons p rest ih => simp [enumFrom, ih, List.range'_succ]

theorem mem_enumFrom {i : Nat} {l : List (Str × Nat)} {t : Str} {n : Nat}
    (h : (t, n) ∈ enumFrom i l) :
    ∃ j c, l.get? j = some (t, c) ∧ n = i + j := by
  induction l generalizing i with
  | nil => simp [enumFrom] at h
  | cons p rest ih =>
    rcases List.mem_cons.mp h with h1 | h1
    · obtain ⟨rfl, rfl⟩ := Prod.mk.injEq .. ▸ h1
      exact ⟨0, p.2, by simp, by omega⟩
    · obtain ⟨j, c, hj, hn⟩ := ih h1
      exact ⟨j + 1, c, by simpa using hj, by omega⟩

theorem assignIds_eq (l : List (Str × Nat)) (d : List (Str × Nat)) (i minFreq : Nat)
    (hfresh : ∀ p ∈ l, p.1 ∉ d.map Prod.fst) (hnd : (l.map Prod.fst).Nodup) :
    assignIds d i minFreq l = d ++ enumFrom i (l.filter (fun p => decide (minFreq < p.2))) := by
  induction l generalizing d i with
  | nil => simp [assignIds, enumFrom]
  | cons p rest ih =>
    obtain ⟨t, c⟩ := p
    simp only [List.map_cons, List.nodup_cons] at hnd
    by_cases h : c > minFreq
    · have hset : dictSet d t i = d ++ [(t, i)] :=
        dictSet_fresh i (hfresh (t, c) (List.mem_cons_self _ _))
      have hfresh2 : ∀ p ∈ rest, p.1 ∉ (d ++ [(t, i)]).map Prod.fst := by
        intro q hq
        simp only [List.map_append, List.mem_append, List.map_cons, List.map_nil,
          List.mem_singleton, not_or]
        refine ⟨hfresh q (List.mem_cons_of_mem _ hq), ?_⟩
        intro hqt
        exact hnd.1 (hqt ▸ List.mem_map.mpr ⟨q, hq, rfl⟩)
      simp only [assignIds, if_pos h, hset, ih (d ++ [(t, i)]) (i + 1) hfresh2 hnd.2]
      rw [List.filter_cons_of_pos (by simpa using h)]
      simp [enumFrom]
    · simp only [assignIds, if_neg h,
        ih d i (fun q hq => hfresh q (List.mem_cons_of_mem _ hq)) hnd.2]
      rw [List.filter_cons_of_neg (by simpa using h)]

/-! ### `most_common` lemmas -/

theorem most_common_perm (c : List (Str × Nat)) : List.Perm (most_common c) c :=
  List.perm_insertionSort cmpDesc c

theorem most_common_pairwise (c : List (Str × Nat)) :
    (most_common c).Pairwise cmpDesc :=
  List.sorted_insertionSort cmpDesc c

theorem most_common_keys_nodup {c : List (Str × Nat)}
    (h : (c.map Prod.fst).Nodup) : ((most_common c).map Prod.fst).Nodup :=
  (((most_common_perm c).map Prod.fst).nodup_iff).mpr h

/-! ### Normal form of the two alphabet builders -/

theorem enumFrom_length (i : Nat) (l : List (Str × Nat)) :
    (enumFrom i l).length = l.length := by
  induction l generalizing i with
  | nil => rfl
  | cons p rest ih => simp [enumFrom, ih]

theorem mem_keys_enumFrom {i : Nat} {l : List (Str × Nat)} {t : Str} {n : Nat}
    (h : (t, n) ∈ enumFrom i l) : ∃ c, (t, c) ∈ l := by
  obtain ⟨j, c, hj, _⟩ := mem_enumFrom h
  exact ⟨c, List.get?_mem hj⟩

theorem nodup_keys_countFold (corpus : List Str) (use_cuis : Bool) (maxT : Nat)
    (c0 : List (Str × Nat)) (h : (c0.map Prod.fst).Nodup) :
    ((corpus.foldl (fun c text =>
      match readFn use_cuis text maxT with
      | none => c
      | some toks => counterUpdate c toks) c0).map Prod.fst).Nodup := by
  induction corpus generalizing c0 with
  | nil => exact h
  | cons f corpus ih =>
    simp only [List.foldl_cons]
    rcases readFn use_cuis f maxT with _ | toks
    · exact ih c0 h
    · exact ih _ (nodup_keys_counterUpdate toks h)

theorem nodup_keys_corpusCounts (corpus : List Str) (use_cuis : Bool) (maxT : Nat) :
    ((corpusCounts corpus use_cuis maxT).map Prod.fst).Nodup :=
  nodup_keys_countFold corpus use_cuis maxT [] (by simp)

theorem nodup_keys_codeCounter (subj2codes : List (Str × List Str)) :
    ((codeCounter subj2codes).map Prod.fst).Nodup := by
  unfold codeCounter
  suffices h : ∀ c0 : List (Str × Nat), (c0.map Prod.fst).Nodup →
      ((subj2codes.foldl (fun c p => counterUpdate c p.2) c0).map Prod.fst).Nodup from
    h [] (by simp)
  induction subj2codes with
  | nil => exact fun c0 h => h
  | cons p rest ih =>
    intro c0 h
    simp only [List.foldl_cons]
    exact ih _ (nodup_keys_counterUpdate p.2 h)

/-- The normal form of `make_and_write_token_alphabet` when the corpus does
not contain the literal token `oov_word`: the sentinel entry followed by the
retained tokens paired with ids 1, 2, ... in sorted order. -/
theorem token_alphabet_normal_form (corpus : List Str) (use_cuis : Bool)
    (maxT minF : Nat)
    (hoov : "oov_word".data ∉ (corpusCounts corpus use_cuis maxT).map Prod.fst) :
    make_and_write_token_alphabet corpus use_cuis maxT minF =
      ("oov_word".data, 0) ::
        enumFrom 1 ((most_common (corpusCounts corpus use_cuis maxT)).filter
          (fun p => decide (minF < p.2))) := by
  unfold make_and_write_token_alphabet
  rw [assignIds_eq]
  · rfl
  · intro p hp
    simp only [List.map_cons, List.map_nil, List.mem_singleton]
    intro hp1
    apply hoov
    have hq : p.1 = "oov_word".data := hp1
    exact hq ▸ List.mem_map.mpr ⟨p, (most_common_perm _).mem_iff.mp hp, rfl⟩
  · exact most_common_keys_nodup (nodup_keys_corpusCounts corpus use_cuis maxT)

/-- The normal form of `make_code_alphabet`: the retained codes paired with
ids 0, 1, ... in sorted order. -/
theorem code_alphabet_normal_form (subj2codes : List (Str × List Str))
    (minEx : Nat) :
    make_code_alphabet subj2codes minEx =
      enumFrom 0 ((most_common (codeCounter subj2codes)).filter
        (fun p => decide (minEx < p.2))) := by
  unfold make_code_alphabet
  rw [assignIds_eq]
  · rfl
  · intro p _
    simp
  · exact most_common_keys_nodup (nodup_keys_codeCounter subj2codes)

/-- Entries of the retained (filtered, sorted) list are counter entries with
count strictly above the threshold. -/
theorem mem_retained {counts : List (Str × Nat)} {minF : Nat} {p : Str × Nat}
    (hp : p ∈ (most_common counts).filter (fun q => decide (minF < q.2))) :
    p ∈ counts ∧ minF < p.2 := by
  have h1 := List.mem_of_mem_filter hp
  have h2 := List.of_mem_filter hp
  exact ⟨(most_common_perm counts).mem_iff.mp h1, by simpa using h2⟩

/-! ### Claims C1 and C2: the token vocabulary -/

/-- Claim C1 (amended): when the corpus does not itself contain the literal
token `oov_word`, the token vocabulary reserves id 0 for the sentinel, never
assigns id 0 to a real corpus token, assigns ids that are unique and
contiguous (0 for the sentinel, then 1, 2, ... for the real tokens), and
assigns them in descending corpus-frequency order. -/
theorem token_alphabet_ids (corpus : List Str) (use_cuis : Bool) (maxT minF : Nat)
    (hoov : "oov_word".data ∉ (corpusCounts corpus use_cuis maxT).map Prod.fst) :
    dictGet (make_and_write_token_alphabet corpus use_cuis maxT minF) "oov_word".data
        = some 0
    ∧ (∀ t n, (t, n) ∈ make_and_write_token_alphabet corpus use_cuis maxT minF →
        t ∈ (corpusCounts corpus use_cuis maxT).map Prod.fst → 1 ≤ n)
    ∧ (make_and_write_token_alphabet corpus use_cuis maxT minF).map Prod.snd =
        List.range (make_and_write_token_alphabet corpus use_cuis maxT minF).length
    ∧ (∀ a ca ia b cb ib, (a, ca) ∈ corpusCounts corpus use_cuis maxT →
        (b, cb) ∈ corpusCounts corpus use_cuis maxT →
        (a, ia) ∈ make_and_write_token_alphabet corpus use_cuis maxT minF →
        (b, ib) ∈ make_and_write_token_alphabet corpus use_cuis maxT minF →
        1 ≤ ia → 1 ≤ ib → cb < ca → ia < ib) := by
  have hnf := token_alphabet_normal_form corpus use_cuis maxT minF hoov
  refine ⟨?_, ?_, ?_, ?_⟩
  · rw [hnf]
    simp [dictGet]
  · intro t n hmem ht
    rw [hnf] at hmem
    rcases List.mem_cons.mp hmem with h1 | h1
    · cases h1
      exact absurd ht hoov
    · obtain ⟨j, c, hj, hn⟩ := mem_enumFrom h1
      omega
  · rw [hnf]
    simp only [List.map_cons, enumFrom_map_snd, List.length_cons, enumFrom_length]
    rw [List.range_eq_range']
    rfl
  · intro a ca ia b cb ib ha hb hma hmb hia hib hcc
    rw [hnf] at hma hmb
    have hma2 : (a, ia) ∈ enumFrom 1 ((most_common (corpusCounts corpus use_cuis maxT)).filter
        (fun p => decide (minF < p.2))) := by
      rcases List.mem_cons.mp hma with h1 | h1
      · cases h1
        omega
      · exact h1
    have hmb2 : (b, ib) ∈ enumFrom 1 ((most_common (corpusCounts corpus use_cuis maxT)).filter
        (fun p => decide (minF < p.2))) := by
      rcases List.mem_cons.mp hmb with h1 | h1
      · cases h1
        omega
      · exact h1
    obtain ⟨ja, ca2, hja, hiae⟩ := mem_enumFrom hma2
    obtain ⟨jb, cb2, hjb, hibe⟩ := mem_enumFrom hmb2
    have hfa : (a, ca2) ∈ _ := List.get?_mem hja
    have hfb : (b, cb2) ∈ _ := List.get?_mem hjb
    have hnd := nodup_keys_corpusCounts corpus use_cuis maxT
    have hca2 : ca2 = ca := value_eq_of_nodup_keys hnd (mem_retained hfa).1 ha
    have hcb2 : cb2 = cb := value_eq_of_nodup_keys hnd (mem_retained hfb).1 hb
    have hpw : ((most_common (corpusCounts corpus use_cuis maxT)).filter
        (fun p => decide (minF < p.2))).Pairwise cmpDesc :=
      (most_common_pairwise _).filter _
    by_contra hlt
    push_neg at hlt
    have hjba : jb ≤ ja := by omega
    rcases Nat.lt_or_eq_of_le hjba with hlt2 | heq
    · obtain ⟨hja2, hgeta⟩ := List.get?_eq_some.mp hja
      obtain ⟨hjb2, hgetb⟩ := List.get?_eq_some.mp hjb
      have hrel := List.pairwise_iff_get.mp hpw ⟨jb, hjb2⟩ ⟨ja, hja2⟩ hlt2
      rw [hgeta, hgetb] at hrel
      have : ca2 ≤ cb2 := hrel
      omega
    · rw [heq] at hjb
      rw [hja] at hjb
      have : a = b ∧ ca2 = cb2 := by
        have := Option.some.injEq .. ▸ hjb
        exact ⟨congrArg Prod.fst this, congrArg Prod.snd this⟩
      omega

/-- Claim C1 counterexample: a CUI corpus whose literal token `oov_word`
passes the frequency threshold makes the builder overwrite the sentinel
entry, so the out-of-vocabulary key maps to id 1, not 0. -/
theorem token_alphabet_oov_collision :
    dictGet (make_and_write_token_alphabet ["oov_word oov_word".data] true 10 1)
        "oov_word".data = some 1
    ∧ dictGet (make_and_write_token_alphabet ["oov_word oov_word".data] true 10 1)
        "oov_word".data ≠ some 0 := by
  decide

theorem token_alphabet_ids_witness :
    dictGet (make_and_write_token_alphabet ["b a a".data] true 10 0) "oov_word".data
      = some 0 :=
  (token_alphabet_ids ["b a a".data] true 10 0 (by decide)).1

/-- Claim C2 (amended): when the corpus does not itself contain the literal
token `oov_word`, a token with corpus count at most `min_token_freq`
receives no id in the mapping, a token absent from the mapping is mapped to
the sentinel id 0 at vectorization time, and every real token that does hold
an id has count strictly above the threshold. -/
theorem token_threshold_behavior (corpus : List Str) (use_cuis : Bool) (maxT minF : Nat)
    (hoov : "oov_word".data ∉ (corpusCounts corpus use_cuis maxT).map Prod.fst) :
    (∀ t c, (t, c) ∈ corpusCounts corpus use_cuis maxT → c ≤ minF →
        dictGet (make_and_write_token_alphabet corpus use_cuis maxT minF) t = none)
    ∧ (∀ t, dictGet (make_and_write_token_alphabet corpus use_cuis maxT minF) t = none →
        mapToken (make_and_write_token_alphabet corpus use_cuis maxT minF) t = 0)
    ∧ (∀ t n, (t, n) ∈ make_and_write_token_alphabet corpus use_cuis maxT minF →
        t ≠ "oov_word".data →
        ∃ c, (t, c) ∈ corpusCounts corpus use_cuis maxT ∧ minF < c) := by
  have hnf := token_alphabet_normal_form corpus use_cuis maxT minF hoov
  have hsent : dictGet (make_and_write_token_alphabet corpus use_cuis maxT minF)
      "oov_word".data = some 0 := by
    rw [hnf]
    simp [dictGet]
  refine ⟨?_, ?_, ?_⟩
  · intro t c htc hle
    have htne : ¬("oov_word".data = t) := by
      rintro rfl
      exact hoov (List.mem_map.mpr ⟨(_, c), htc, rfl⟩)
    rw [hnf]
    simp only [dictGet, if_neg htne]
    rw [dictGet_eq_none_iff, enumFrom_map_fst]
    intro hmem
    obtain ⟨p, hp, hp1⟩ := List.mem_map.mp hmem
    have hp2 : (t, p.2) ∈ corpusCounts corpus use_cuis maxT := by
      rw [← hp1, Prod.mk.eta]
      exact (mem_retained hp).1
    have hpv : p.2 = c :=
      value_eq_of_nodup_keys (nodup_keys_corpusCounts corpus use_cuis maxT) hp2 htc
    have := (mem_retained hp).2
    omega
  · intro t hnone
    unfold mapToken
    rw [hnone, hsent]
    rfl
  · intro t n hmem hne
    rw [hnf] at hmem
    rcases List.mem_cons.mp hmem with h1 | h1
    · cases h1
      exact absurd rfl hne
    · obtain ⟨c, hc⟩ := mem_keys_enumFrom h1
      exact ⟨c, (mem_retained hc).1, (mem_retained hc).2⟩

/-- Claim C2 counterexample: after the `oov_word` sentinel collision, a
token absent from the mapping is vectorized to id 1, not to the sentinel
id 0. -/
theorem token_lookup_oov_collision :
    dictGet (make_and_write_token_alphabet ["oov_word oov_word".data] true 10 1)
        "zzz".data = none
    ∧ mapToken (make_and_write_token_alphabet ["oov_word oov_word".data] true 10 1)
        "zzz".data = 1
    ∧ mapToken (make_and_write_token_alphabet ["oov_word oov_word".data] true 10 1)
        "zzz".data ≠ 0 := by
  decide

theorem token_threshold_behavior_witness :
    dictGet (make_and_write_token_alphabet ["b a a".data] true 10 1) "b".data = none :=
  (token_threshold_behavior ["b a a".data] true 10 1 (by decide)).1
    "b".data 1 (by decide) (by decide)

/-! ### Claims C6 and C10: the code vocabulary -/

theorem cnt_codeCounter_fold (s2c : List (Str × List Str)) (c0 : List (Str × Nat))
    (t : Str) :
    cnt (s2c.foldl (fun c p => counterUpdate c p.2) c0) t =
      cnt c0 t + (s2c.map (fun p => p.2.count t)).sum := by
  induction s2c generalizing c0 with
  | nil => simp
  | cons p rest ih =>
    simp only [List.foldl_cons, ih, cnt_counterUpdate, List.map_cons, List.sum_cons]
    omega

theorem count_of_nodup (l : List Str) (t : Str) (hl : l.Nodup) :
    l.count t = if t ∈ l then 1 else 0 := by
  induction l with
  | nil => simp
  | cons a l ih =>
    simp only [List.nodup_cons] at hl
    rw [List.count_cons]
    by_cases h : a = t
    · subst h
      simp [hl.1, ih hl.2]
    · simp [h, Ne.symm h, ih hl.2]

theorem sum_count_eq_numSubjects (s2c : List (Str × List Str)) (t : Str)
    (hvals : ∀ p ∈ s2c, p.2.Nodup) :
    (s2c.map (fun p => p.2.count t)).sum = numSubjectsHolding s2c t := by
  induction s2c with
  | nil => rfl
  | cons p rest ih =>
    have hp : p.2.Nodup := hvals p (List.mem_cons_self _ _)
    have hrest := ih (fun q hq => hvals q (List.mem_cons_of_mem _ hq))
    simp only [List.map_cons, List.sum_cons, numSubjectsHolding, List.filter_cons,
      count_of_nodup p.2 t hp] at hrest ⊢
    by_cases h : t ∈ p.2
    · simp [h, hrest]
      omega
    · simp [h, hrest]

theorem cnt_codeCounter (s2c : List (Str × List Str)) (t : Str)
    (hvals : ∀ p ∈ s2c, p.2.Nodup) :
    cnt (codeCounter s2c) t = numSubjectsHolding s2c t := by
  unfold codeCounter
  rw [cnt_codeCounter_fold, sum_count_eq_numSubjects s2c t hvals]
  simp [cnt, dictGet]

/-- Ids handed out along a descending-sorted list respect the sort order:
an entry with a strictly larger count gets a strictly smaller id. -/
theorem enumFrom_ids_ordered {l : List (Str × Nat)} (hpw : l.Pairwise cmpDesc)
    (hnd : (l.map Prod.fst).Nodup) {i : Nat} {a b : Str} {ia ib ca cb : Nat}
    (hma : (a, ia) ∈ enumFrom i l) (hmb : (b, ib) ∈ enumFrom i l)
    (hca : (a, ca) ∈ l) (hcb : (b, cb) ∈ l) (hcc : cb < ca) : ia < ib := by
  obtain ⟨ja, ca2, hja, hiae⟩ := mem_enumFrom hma
  obtain ⟨jb, cb2, hjb, hibe⟩ := mem_enumFrom hmb
  have hca2 : ca2 = ca := value_eq_of_nodup_keys hnd (List.get?_mem hja) hca
  have hcb2 : cb2 = cb := value_eq_of_nodup_keys hnd (List.get?_mem hjb) hcb
  by_contra hlt
  push_neg at hlt
  have hjba : jb ≤ ja := by omega
  rcases Nat.lt_or_eq_of_le hjba with hlt2 | heq
  · obtain ⟨hja2, hgeta⟩ := List.get?_eq_some.mp hja
    obtain ⟨hjb2, hgetb⟩ := List.get?_eq_some.mp hjb
    have hrel := List.pairwise_iff_get.mp hpw ⟨jb, hjb2⟩ ⟨ja, hja2⟩ hlt2
    rw [hgeta, hgetb] at hrel
    have : ca2 ≤ cb2 := hrel
    omega
  · rw [heq] at hjb
    rw [hja] at hjb
    have hab : (a, ca2) = (b, cb2) := Option.some.injEq .. ▸ hjb
    have : ca2 = cb2 := congrArg Prod.snd hab
    omega

/-- Claim C6: the code vocabulary counts, per code, the number of distinct
subjects holding it; a code receives an id exactly when that count is
strictly greater than `min_examples_per_code`; ids follow descending
subject-count order; excluded codes are simply absent (no sentinel). -/
theorem code_alphabet_spec (s2c : List (Str × List Str)) (minEx : Nat)
    (hkeys : (s2c.map Prod.fst).Nodup)
    (hvals : ∀ p ∈ s2c, p.2.Nodup) :
    (∀ code, cnt (codeCounter s2c) code = numSubjectsHolding s2c code)
    ∧ (∀ code, (∃ n, dictGet (make_code_alphabet s2c minEx) code = some n) ↔
        minEx < numSubjectsHolding s2c code)
    ∧ (∀ a ia b ib, (a, ia) ∈ make_code_alphabet s2c minEx →
        (b, ib) ∈ make_code_alphabet s2c minEx →
        numSubjectsHolding s2c b < numSubjectsHolding s2c a → ia < ib) := by
  have hnf := code_alphabet_normal_form s2c minEx
  have hcnt := fun code => cnt_codeCounter s2c code hvals
  have hndc := nodup_keys_codeCounter s2c
  have hval_of_mem : ∀ code n, (code, n) ∈ codeCounter s2c →
      n = numSubjectsHolding s2c code := by
    intro code n hm
    have := mem_dictGet hndc hm
    have h2 : cnt (codeCounter s2c) code = n := by
      unfold cnt
      rw [this]
      rfl
    rw [← h2, hcnt]
  refine ⟨hcnt, ?_, ?_⟩
  · intro code
    constructor
    · rintro ⟨n, hn⟩
      have hmem := dictGet_mem hn
      rw [hnf] at hmem
      obtain ⟨c, hc⟩ := mem_keys_enumFrom hmem
      obtain ⟨hc1, hc2⟩ := mem_retained hc
      have := hval_of_mem code c hc1
      omega
    · intro hgt
      have hpos : 1 ≤ cnt (codeCounter s2c) code := by
        rw [hcnt]
        omega
      rcases hd : dictGet (codeCounter s2c) code with _ | n
      · rw [show cnt (codeCounter s2c) code = 0 by unfold cnt; rw [hd]; rfl] at hpos
        omega
      · have hmem : (code, n) ∈ codeCounter s2c := dictGet_mem hd
        have hn : n = numSubjectsHolding s2c code := hval_of_mem code n hmem
        have hfl : (code, n) ∈ (most_common (codeCounter s2c)).filter
            (fun p => decide (minEx < p.2)) := by
          refine List.mem_filter.mpr ⟨(most_common_perm _).mem_iff.mpr hmem, ?_⟩
          simp only [decide_eq_true_eq]
          omega
        have hkey : code ∈ (make_code_alphabet s2c minEx).map Prod.fst := by
          rw [hnf, enumFrom_map_fst]
          exact List.mem_map.mpr ⟨(code, n), hfl, rfl⟩
        rcases hd2 : dictGet (make_code_alphabet s2c minEx) code with _ | m
        · exact absurd ((dictGet_eq_none_iff _ _).mp hd2) (by simpa using hkey)
        · exact ⟨m, rfl⟩
  · intro a ia b ib hma hmb hcc
    rw [hnf] at hma hmb
    obtain ⟨ca, hca⟩ := mem_keys_enumFrom hma
    obtain ⟨cb, hcb⟩ := mem_keys_enumFrom hmb
    have hpw : ((most_common (codeCounter s2c)).filter
        (fun p => decide (minEx < p.2))).Pairwise cmpDesc :=
      (most_common_pairwise _).filter _
    have hndfl : (((most_common (codeCounter s2c)).filter
        (fun p => decide (minEx < p.2))).map Prod.fst).Nodup :=
      List.Nodup.sublist ((List.filter_sublist _).map Prod.fst)
        (most_common_keys_nodup hndc)
    have hcav : ca = numSubjectsHolding s2c a :=
      hval_of_mem a ca (mem_retained hca).1
    have hcbv : cb = numSubjectsHolding s2c b :=
      hval_of_mem b cb (mem_retained hcb).1
    exact enumFrom_ids_ordered hpw hndfl hma hmb hca hcb (by omega)

theorem code_alphabet_spec_witness :
    ∃ n, dictGet (make_code_alphabet
      [("S1".data, ["b".data, "a".data]), ("S2".data, ["b".data])] 1) "b".data = some n :=
  ((code_alphabet_spec [("S1".data, ["b".data, "a".data]), ("S2".data, ["b".data])] 1
    (by decide) (by decide)).2.1 "b".data).mpr (by decide)

theorem mkCodeVec_length (code2int : List (Str × Nat)) (subjCodes : List Str) :
    (mkCodeVec code2int subjCodes).length = code2int.length := by
  unfold mkCodeVec
  suffices h : ∀ v0 : List Nat, v0.length = code2int.length →
      (subjCodes.foldl (fun vec c =>
        match dictGet code2int c with
        | some i => vec.set i 1
        | none => vec) v0).length = code2int.length from
    h _ (List.length_replicate _ _)
  induction subjCodes with
  | nil => exact fun v0 h => h
  | cons c rest ih =>
    intro v0 h
    simp only [List.foldl_cons]
    rcases dictGet code2int c with _ | i
    · exact ih v0 h
    · exact ih _ (by rw [List.length_set]; exact h)

/-- A retained example's label vector: positive sum and full width. -/
theorem processFile_some_vec {subj2codes : List (Str × List Str)}
    {token2int code2int : List (Str × Nat)} {use_cuis : Bool}
    {maxT : Nat} {maxlen : Option Nat} {tas : Bool} {file text : Str}
    {ex vec : List Nat}
    (h : processFile subj2codes token2int code2int use_cuis maxT maxlen tas file text
      = some (ex, vec)) :
    1 ≤ vec.sum ∧ vec.length = code2int.length := by
  unfold processFile at h
  rcases hr : readFn use_cuis text maxT with _ | ngrams
  · rw [hr] at h
    simp at h
  · rw [hr] at h
    rcases hd : dictGet subj2codes (subjOf file) with _ | sc
    · rw [hd] at h
      simp at h
    · rw [hd] at h
      by_cases hsc : sc.length = 0
      · simp only [if_pos hsc] at h
        simp at h
      · simp only [if_neg hsc] at h
        by_cases hsum : (mkCodeVec code2int sc).sum = 0
        · simp only [if_pos hsum] at h
          simp at h
        · simp only [if_neg hsum, Option.some.injEq, Prod.mk.injEq] at h
          have hv : vec = mkCodeVec code2int sc := h.2.symm
          rw [hv]
          exact ⟨by omega, mkCodeVec_length code2int sc⟩

theorem load_fold_lengths (corpus : List (Str × Str))
    (subj2codes : List (Str × List Str)) (token2int code2int : List (Str × Nat))
    (use_cuis : Bool) (maxT : Nat) (maxlen : Option Nat) (tas : Bool)
    (acc : List (List Nat) × List (List Nat)) (h : acc.1.length = acc.2.length) :
    (corpus.foldl (loadStep subj2codes token2int code2int use_cuis maxT maxlen tas)
      acc).1.length =
    (corpus.foldl (loadStep subj2codes token2int code2int use_cuis maxT maxlen tas)
      acc).2.length := by
  induction corpus generalizing acc with
  | nil => exact h
  | cons f corpus ih =>
    simp only [List.foldl_cons]
    apply ih
    unfold loadStep
    rcases processFile subj2codes token2int code2int use_cuis maxT maxlen tas f.1 f.2
      with _ | ev
    · exact h
    · simp [h]

theorem load_fold_codes_mem (corpus : List (Str × Str))
    (subj2codes : List (Str × List Str)) (token2int code2int : List (Str × Nat))
    (use_cuis : Bool) (maxT : Nat) (maxlen : Option Nat) (tas : Bool)
    (acc : List (List Nat) × List (List Nat)) :
    ∀ vec ∈ (corpus.foldl
        (loadStep subj2codes token2int code2int use_cuis maxT maxlen tas) acc).2,
      vec ∈ acc.2 ∨ ∃ file text ex,
        processFile subj2codes token2int code2int use_cuis maxT maxlen tas file text
          = some (ex, vec) := by
  induction corpus generalizing acc with
  | nil => exact fun vec hv => Or.inl hv
  | cons f corpus ih =>
    intro vec hv
    simp only [List.foldl_cons] at hv
    rcases ih _ vec hv with h1 | h1
    · unfold loadStep at h1
      rcases hp : processFile subj2codes token2int code2int use_cuis maxT maxlen tas
          f.1 f.2 with _ | ev
      · rw [hp] at h1
        exact Or.inl h1
      · rw [hp] at h1
        simp only [List.mem_append, List.mem_singleton] at h1
        rcases h1 with h2 | h2
        · exact Or.inl h2
        · exact Or.inr ⟨f.1, f.2, ev.1, by rw [hp, h2, Prod.mk.eta]⟩
    · exact Or.inr h1

/-- Claim C10: `load` returns aligned equal-length lists, every label vector
has width equal to the number of codes holding an id, and the code
vocabulary's ids are unique and contiguous starting at 0 with no sentinel
entry (every entry's key is a counted code). -/
theorem load_shapes (corpus : List (Str × Str)) (s2c : List (Str × List Str))
    (token2int : List (Str × Nat)) (minEx : Nat) (use_cuis : Bool)
    (maxT : Nat) (maxlen : Option Nat) (tas : Bool) :
    (load corpus s2c token2int (make_code_alphabet s2c minEx) use_cuis maxT maxlen
      tas).1.length =
      (load corpus s2c token2int (make_code_alphabet s2c minEx) use_cuis maxT maxlen
        tas).2.length
    ∧ (∀ vec ∈ (load corpus s2c token2int (make_code_alphabet s2c minEx) use_cuis maxT
        maxlen tas).2, vec.length = (make_code_alphabet s2c minEx).length)
    ∧ (make_code_alphabet s2c minEx).map Prod.snd =
        List.range (make_code_alphabet s2c minEx).length
    ∧ (∀ p ∈ make_code_alphabet s2c minEx, p.1 ∈ (codeCounter s2c).map Prod.fst) := by
  refine ⟨?_, ?_, ?_, ?_⟩
  · exact load_fold_lengths corpus s2c token2int _ use_cuis maxT maxlen tas ([], []) rfl
  · intro vec hv
    rcases load_fold_codes_mem corpus s2c token2int _ use_cuis maxT maxlen tas ([], [])
        vec hv with h1 | ⟨file, text, ex, hp⟩
    · exact absurd h1 (List.not_mem_nil vec)
    · exact (processFile_some_vec hp).2
  · rw [code_alphabet_normal_form s2c minEx, enumFrom_map_snd, enumFrom_length,
      List.range_eq_range']
  · intro p hp
    obtain ⟨t, n⟩ := p
    rw [code_alphabet_normal_form s2c minEx] at hp
    obtain ⟨c, hc⟩ := mem_keys_enumFrom hp
    exact List.mem_map.mpr ⟨(t, c), (mem_retained hc).1, rfl⟩

theorem load_shapes_witness :
    ([1] : List Nat).length =
      (make_code_alphabet [("S1".data, ["b".data, "a".data]), ("S2".data, ["b".data])]
        1).length :=
  (load_shapes [("S1.txt".data, "hello".data)]
    [("S1".data, ["b".data, "a".data]), ("S2".data, ["b".data])]
    [("oov_word".data, 0)] 1 true 10 none false).2.1 [1] (by decide)

/-! ### Claims C5 and C7: code indexing -/

theorem addCode_self_mem (m : List (Str × List Str)) (s code : Str) :
    ∃ l, dictGet (addCode m s code) s = some l ∧ code ∈ l := by
  induction m with
  | nil =>
    refine ⟨[code], ?_, List.mem_singleton_self code⟩
    simp [addCode, dictGet]
  | cons p rest ih =>
    obtain ⟨k, v⟩ := p
    by_cases h : k = s
    · subst h
      refine ⟨setAdd v code, by simp [addCode, dictGet], ?_⟩
      unfold setAdd
      by_cases hc : code ∈ v
      · simpa [hc]
      · simp [hc]
    · obtain ⟨l, hl, hcl⟩ := ih
      exact ⟨l, by simp [addCode, dictGet, h, hl], hcl⟩

theorem addCode_mono {m : List (Str × List Str)} {s0 : Str} {l0 : List Str} {c0 : Str}
    (s code : Str) (h : dictGet m s0 = some l0) (hc : c0 ∈ l0) :
    ∃ l1, dictGet (addCode m s code) s0 = some l1 ∧ c0 ∈ l1 := by
  induction m with
  | nil => simp [dictGet] at h
  | cons p rest ih =>
    obtain ⟨k, v⟩ := p
    by_cases hk : k = s
    · subst hk
      by_cases hs : k = s0
      · subst hs
        simp [dictGet] at h
        subst h
        refine ⟨setAdd v code, by simp [addCode, dictGet], ?_⟩
        unfold setAdd
        by_cases hcv : code ∈ v
        · simpa [hcv]
        · simp [hcv, hc]
      · simp only [dictGet, if_neg hs] at h
        exact ⟨l0, by simp [addCode, dictGet, hs, h], hc⟩
    · by_cases hs : k = s0
      · subst hs
        simp [dictGet] at h
        subst h
        exact ⟨v, by simp [addCode, dictGet, hk], hc⟩
      · simp only [dictGet, if_neg hs] at h
        obtain ⟨l1, hl1, hcl1⟩ := ih h
        exact ⟨l1, by simp [addCode, dictGet, hk, hs, hl1], hcl1⟩

theorem index_codes_mono (rows : List (Option Str × Option Str)) (pfx : Str) (nd : Nat)
    {m : List (Str × List Str)} {s0 : Str} {l0 : List Str} {c0 : Str}
    (h : dictGet m s0 = some l0) (hc : c0 ∈ l0) :
    ∃ l1, dictGet (index_codes m rows pfx nd) s0 = some l1 ∧ c0 ∈ l1 := by
  induction rows generalizing m l0 with
  | nil => exact ⟨l0, h, hc⟩
  | cons row rows ih =>
    rcases row with ⟨_ | s, oc⟩
    · exact ih h hc
    · rcases oc with _ | c
      · exact ih h hc
      · obtain ⟨l1, hl1, hcl1⟩ := addCode_mono s (pfx ++ "_".data ++ c.take nd) h hc
        exact ih hl1 hcl1

/-- Claim C5: a row with a null subject or null code is skipped without
error; a non-null row adds `<namespace>_<code[0:prefixLength]>` to the
subject's code set; calls thread one shared accumulator, so earlier codes
survive later rows and chained calls, and the spec's `diag_250` scenario
holds. -/
theorem index_codes_row_semantics (m : List (Str × List Str))
    (rows : List (Option Str × Option Str)) (pfx : Str) (nd : Nat)
    (s c : Str) (oc : Option Str) :
    index_codes m ((none, oc) :: rows) pfx nd = index_codes m rows pfx nd
    ∧ index_codes m ((some s, none) :: rows) pfx nd = index_codes m rows pfx nd
    ∧ index_codes m ((some s, some c) :: rows) pfx nd =
        index_codes (addCode m s (pfx ++ "_".data ++ c.take nd)) rows pfx nd
    ∧ (∃ l, dictGet (addCode m s (pfx ++ "_".data ++ c.take nd)) s = some l ∧
        (pfx ++ "_".data ++ c.take nd) ∈ l)
    ∧ (∀ rows2, index_codes m (rows ++ rows2) pfx nd =
        index_codes (index_codes m rows pfx nd) rows2 pfx nd)
    ∧ (∀ s0 c0 l0, dictGet m s0 = some l0 → c0 ∈ l0 →
        ∃ l1, dictGet (index_codes m rows pfx nd) s0 = some l1 ∧ c0 ∈ l1)
    ∧ index_codes [] [(some "S1".data, some "250.00".data)] "diag".data 3 =
        [("S1".data, ["diag_250".data])] := by
  refine ⟨rfl, rfl, rfl, addCode_self_mem m s _, ?_, ?_, by decide⟩
  · intro rows2
    unfold index_codes
    rw [List.foldl_append]
  · intro s0 c0 l0 h hc
    exact index_codes_mono rows pfx nd h hc

theorem index_codes_row_semantics_witness :
    ∃ l, dictGet (addCode [] "S1".data ("diag".data ++ "_".data ++ "250.00".data.take 3))
        "S1".data = some l ∧
      ("diag".data ++ "_".data ++ "250.00".data.take 3) ∈ l :=
  (index_codes_row_semantics [] [] "diag".data 3 "S1".data "250.00".data none).2.2.2.1

/-- Claim C7 counterexample: a raw code shorter than the configured prefix
length does not make indexing fail; the row is indexed normally, storing
the unpadded short code `diag_25`. -/
theorem short_code_indexed :
    index_codes [] [(some "S1".data, some "25".data)] "diag".data 3 =
      [("S1".data, ["diag_25".data])]
    ∧ ("25".data).length < 3 := by
  decide

/-- Claim C7 (amended): code indexing never fails; `code[0:prefixLength]`
yields the whole raw code when it is shorter than the prefix length (slice
without padding) and a length-`prefixLength` prefix otherwise. -/
theorem code_truncation (m : List (Str × List Str))
    (rows : List (Option Str × Option Str)) (s c pfx : Str) (nd : Nat) :
    index_codes m ((some s, some c) :: rows) pfx nd =
      index_codes (addCode m s (pfx ++ "_".data ++ c.take nd)) rows pfx nd
    ∧ (c.length ≤ nd → c.take nd = c)
    ∧ (nd ≤ c.length → (c.take nd).length = nd) := by
  refine ⟨rfl, fun h => List.take_of_length_le h, fun h => ?_⟩
  rw [List.length_take]
  omega

theorem code_truncation_witness :
    ("25".data).take 3 = "25".data :=
  (code_truncation [] [] "S1".data "25".data "diag".data 3).2.1 (by decide)

/-! ### Claim C3: the assembler's skip rules -/

theorem takeWhile_maximal {p : Char → Bool} :
    ∀ (pre l rest : Str), pre ++ rest = l → (∀ ch ∈ pre, p ch = true) →
      pre.length ≤ (l.takeWhile p).length := by
  intro pre
  induction pre with
  | nil => simp
  | cons c pre ih =>
    intro l rest heq hall
    subst heq
    rw [List.cons_append, List.takeWhile_cons_of_pos (hall c (List.mem_cons_self c pre))]
    simp only [List.length_cons, Nat.succ_le_succ_iff]
    exact ih (pre ++ rest) rest rfl (fun ch hch => hall ch (List.mem_cons_of_mem c hch))

/-- Claim C3: the subject id is the base name before the first dot (the
longest dot-free prefix of the file name); a document is skipped exactly
when the tokenizer rejects it, the subject has no recorded code set, the
code set is empty, or the label vector has no set bit; every retained
label vector sums to at least 1. -/
theorem assembler_skip_rules (subj2codes : List (Str × List Str))
    (token2int code2int : List (Str × Nat)) (use_cuis : Bool)
    (maxT : Nat) (maxlen : Option Nat) (tas : Bool) (file text : Str)
    (corpus : List (Str × Str)) :
    (processFile subj2codes token2int code2int use_cuis maxT maxlen tas file text = none
      ↔ (readFn use_cuis text maxT = none
        ∨ dictGet subj2codes (subjOf file) = none
        ∨ (∃ sc, dictGet subj2codes (subjOf file) = some sc ∧
            (sc = [] ∨ (mkCodeVec code2int sc).sum = 0))))
    ∧ (∀ ex vec,
        processFile subj2codes token2int code2int use_cuis maxT maxlen tas file text
          = some (ex, vec) → 1 ≤ vec.sum)
    ∧ (∀ vec ∈ (load corpus subj2codes token2int code2int use_cuis maxT maxlen tas).2,
        1 ≤ vec.sum)
    ∧ (∃ rest, subjOf file ++ rest = file)
    ∧ (∀ ch ∈ subjOf file, ch ≠ '.')
    ∧ (∀ pre rest, pre ++ rest = file → (∀ ch ∈ pre, ch ≠ '.') →
        pre.length ≤ (subjOf file).length) := by
  refine ⟨?_, ?_, ?_, ?_, ?_, ?_⟩
  · unfold processFile
    rcases hr : readFn use_cuis text maxT with _ | ngrams
    · simp
    · rcases hd : dictGet subj2codes (subjOf file) with _ | sc
      · simp [hr, hd]
      · by_cases hsc : sc.length = 0
        · have hnil : sc = [] := List.length_eq_zero.mp hsc
          simp [hr, hd, hsc, hnil]
        · simp only [if_neg hsc]
          have hne : sc ≠ [] := fun h => hsc (by rw [h]; rfl)
          by_cases hsum : (mkCodeVec code2int sc).sum = 0
          · simp [hr, hd, hsum, hne]
          · simp [hr, hd, hsum, hne]
  · intro ex vec h
    exact (processFile_some_vec h).1
  · intro vec hv
    rcases load_fold_codes_mem corpus subj2codes token2int code2int use_cuis maxT
        maxlen tas ([], []) vec hv with h1 | ⟨f, t, ex, hp⟩
    · exact absurd h1 (List.not_mem_nil vec)
    · exact (processFile_some_vec hp).1
  · exact ⟨file.dropWhile (fun c => c != '.'),
      List.takeWhile_append_dropWhile (fun c => c != '.') file⟩
  · intro ch hch
    have := List.mem_takeWhile_imp hch
    simpa using this
  · intro pre rest heq hall
    exact takeWhile_maximal pre file rest heq (fun ch hch => by simpa using hall ch hch)

theorem assembler_skip_rules_witness :
    1 ≤ ([1] : List Nat).sum :=
  (assembler_skip_rules [("S1".data, ["b".data])] [("oov_word".data, 0)]
    [("b".data, 0)] true 10 none false "S1.txt".data "hello".data
    [("S1.txt".data, "hello".data)]).2.2.1 [1] (by decide)

/-! ### Claim C4: the normalized-words tokenizer -/

theorem splitWsGo_tokens (P : Char → Prop) :
    ∀ (l : Str) (acc : List Str) (cur : Str),
      (∀ s ∈ acc, s ≠ [] ∧ ∀ ch ∈ s, P ch) →
      (∀ ch ∈ cur, P ch) →
      (∀ ch ∈ l, ch.isWhitespace = false → P ch) →
      ∀ t ∈ splitWsGo acc cur l, t ≠ [] ∧ ∀ ch ∈ t, P ch := by
  intro l
  induction l with
  | nil =>
    intro acc cur hacc hcur _
    unfold splitWsGo
    by_cases h : cur = []
    · simpa [h] using hacc
    · intro t ht
      rw [if_neg h] at ht
      rcases List.mem_append.mp ht with h1 | h1
      · exact hacc t h1
      · rw [List.mem_singleton] at h1
        subst h1
        exact ⟨h, hcur⟩
  | cons c rest ih =>
    intro acc cur hacc hcur hl
    unfold splitWsGo
    by_cases hw : c.isWhitespace = true
    · rw [if_pos hw]
      by_cases hc : cur = []
      · rw [if_pos hc]
        exact ih acc [] hacc (by simp)
          (fun ch hch hws => hl ch (List.mem_cons_of_mem c hch) hws)
      · rw [if_neg hc]
        refine ih (acc ++ [cur]) [] ?_ (by simp)
          (fun ch hch hws => hl ch (List.mem_cons_of_mem c hch) hws)
        intro s hs
        rcases List.mem_append.mp hs with h1 | h1
        · exact hacc s h1
        · rw [List.mem_singleton] at h1
          subst h1
          exact ⟨hc, hcur⟩
    · rw [if_neg hw]
      refine ih acc (cur ++ [c]) hacc ?_
        (fun ch hch hws => hl ch (List.mem_cons_of_mem c hch) hws)
      intro ch hch
      rcases List.mem_append.mp hch with h1 | h1
      · exact hcur ch h1
      · rw [List.mem_singleton] at h1
        rw [h1]
        exact hl c (List.mem_cons_self c rest) (by simpa using hw)

theorem splitWsGo_join :
    ∀ (l : Str) (acc : List Str) (cur : Str),
      (splitWsGo acc cur l).join =
        acc.join ++ cur ++ l.filter (fun ch => !ch.isWhitespace) := by
  intro l
  induction l with
  | nil =>
    intro acc cur
    unfold splitWsGo
    by_cases h : cur = []
    · simp [h]
    · simp [h]
  | cons c rest ih =>
    intro acc cur
    unfold splitWsGo
    rw [List.filter_cons]
    by_cases hw : c.isWhitespace = true
    · have hns : ¬((!c.isWhitespace) = true) := by simp [hw]
      rw [if_pos hw, if_neg hns]
      by_cases hc : cur = []
      · rw [if_pos hc, ih acc []]
        simp [hc]
      · rw [if_neg hc, ih (acc ++ [cur]) []]
        simp
    · have hs : (!c.isWhitespace) = true := by simpa using hw
      rw [if_neg hw, if_pos hs, ih acc (cur ++ [c])]
      simp

/-- Claim C4: `read_tokens` is a pure function of the text and the cutoff;
it lowercases (every token character is the `toLower` image of a text
character), splits on whitespace (tokens are nonempty, whitespace-free, and
concatenate to exactly the non-whitespace characters of the lowered text),
retains only all-alphabetic tokens, and returns `none` exactly when the
retained token sequence is longer than the cutoff. -/
theorem read_tokens_characterization (text : Str) (maxT : Nat) :
    (read_tokens text maxT = none ↔
      maxT < ((pySplit (pyLower text)).filter pyIsAlpha).length)
    ∧ (∀ ts, read_tokens text maxT = some ts →
        ts = (pySplit (pyLower text)).filter pyIsAlpha ∧ ts.length ≤ maxT)
    ∧ (∀ t ∈ (pySplit (pyLower text)).filter pyIsAlpha,
        pyIsAlpha t = true ∧ t ≠ [] ∧
          ∀ ch ∈ t, ch.isWhitespace = false ∧ ∃ c0 ∈ text, ch = c0.toLower)
    ∧ (pySplit (pyLower text)).join =
        (pyLower text).filter (fun ch => !ch.isWhitespace) := by
  refine ⟨?_, ?_, ?_, splitWsGo_join (pyLower text) [] []⟩
  · unfold read_tokens
    by_cases h : ((pySplit (pyLower text)).filter pyIsAlpha).length > maxT
    · simp [h]
    · simp [h]
  · intro ts hts
    unfold read_tokens at hts
    by_cases h : ((pySplit (pyLower text)).filter pyIsAlpha).length > maxT
    · simp [h] at hts
    · simp [h] at hts
      refine ⟨hts.symm, ?_⟩
      rw [← hts]
      omega
  · intro t ht
    have halpha : pyIsAlpha t = true := List.of_mem_filter ht
    have hsplit := splitWsGo_tokens
      (fun ch => ch.isWhitespace = false ∧ ∃ c0 ∈ text, ch = c0.toLower)
      (pyLower text) [] [] (by simp) (by simp)
      (fun ch hch hws => ⟨hws, by
        obtain ⟨c0, hc0, hc0e⟩ := List.mem_map.mp hch
        exact ⟨c0, hc0, hc0e.symm⟩⟩)
      t (List.mem_of_mem_filter ht)
    exact ⟨halpha, hsplit.1, fun ch hch => (hsplit.2 ch hch)⟩

theorem read_tokens_characterization_witness :
    (["ab".data, "ef".data] : List Str) =
        (pySplit (pyLower "Ab cd9 EF".data)).filter pyIsAlpha
      ∧ (["ab".data, "ef".data] : List Str).length ≤ 10 :=
  (read_tokens_characterization "Ab cd9 EF".data 10).2.1
    ["ab".data, "ef".data] (by decide)

/-! ### Claim C8: the 0.5 threshold -/

/-- Claim C8: the two in-place masked assignments are exactly pointwise
inclusive-high thresholding at 1/2: entries at least 1/2 become 1, entries
below become 0, shape untouched, and nothing else. -/
theorem threshold_indicator (m : List (List ℚ)) :
    thresholdMatrix m =
      m.map (List.map (fun x => if x ≥ 1/2 then 1 else 0))
    ∧ ∀ row ∈ thresholdMatrix m, ∀ x ∈ row, x = 0 ∨ x = 1 := by
  have hpt : ∀ x : ℚ,
      (fun x : ℚ => if x ≥ 1/2 then 1 else x) ((fun x : ℚ => if x < 1/2 then 0 else x) x)
        = if x ≥ 1/2 then 1 else 0 := by
    intro x
    by_cases h : x < 1/2
    · have h2 : ¬(x ≥ (1:ℚ)/2) := not_le.mpr h
      have h3 : ¬((0:ℚ) ≥ 1/2) := by norm_num
      simp only [if_pos h, h2, h3, if_false]
    · have h2 : x ≥ (1:ℚ)/2 := not_lt.mp h
      simp only [if_neg h, h2, if_true]
  have heq : thresholdMatrix m = m.map (List.map (fun x => if x ≥ 1/2 then 1 else 0)) := by
    unfold thresholdMatrix
    simp only [List.map_map]
    apply List.map_congr_left
    intro row _
    simp only [Function.comp]
    rw [List.map_map]
    apply List.map_congr_left
    intro x _
    exact hpt x
  refine ⟨heq, ?_⟩
  intro row hrow x hx
  rw [heq] at hrow
  obtain ⟨r0, _, hr0e⟩ := List.mem_map.mp hrow
  rw [← hr0e] at hx
  obtain ⟨x0, _, hx0e⟩ := List.mem_map.mp hx
  rw [← hx0e]
  by_cases h : x0 ≥ (1:ℚ)/2
  · right
    rw [if_pos h]
  · left
    rw [if_neg h]

theorem threshold_indicator_witness :
    ((1 : ℚ) = 0 ∨ (1 : ℚ) = 1) :=
  (threshold_indicator [[1/4, 1/2]]).2 [0, 1]
    (by norm_num [thresholdMatrix]) 1 (by norm_num [thresholdMatrix])

/-! ### Claim C9: the evaluation report file -/

theorem int2code_eq (d : List (Str × Nat)) (hnd : (d.map Prod.snd).Nodup) :
    int2code d = d.map (fun p => (p.2, p.1)) := by
  unfold int2code
  suffices h : ∀ acc : List (Nat × Str),
      (∀ p ∈ d, p.2 ∉ acc.map Prod.fst) →
      d.foldl (fun acc p => dictSet acc p.2 p.1) acc =
        acc ++ d.map (fun p => (p.2, p.1)) by
    simpa using h [] (by simp)
  induction d with
  | nil => simp
  | cons p rest ih =>
    intro acc hfresh
    simp only [List.map_cons, List.nodup_cons] at hnd
    simp only [List.foldl_cons]
    rw [dictSet_fresh p.1 (hfresh p (List.mem_cons_self _ _))]
    rw [ih hnd.2]
    · simp
    · intro q hq
      simp only [List.map_append, List.mem_append, List.map_cons, List.map_nil,
        List.mem_singleton, not_or]
      refine ⟨hfresh q (List.mem_cons_of_mem _ hq), ?_⟩
      intro hqp
      exact hnd.1 (hqp ▸ List.mem_map.mpr ⟨q, hq, rfl⟩)

/-- Claim C9: the results file is the line `macro|<score>` followed by
exactly one line per label, each resolving the label index back to its code
string through the inverted code vocabulary. -/
theorem results_file_format (code2int : List (Str × Nat)) (fmt : ℚ → Str)
    (macroF1 : ℚ) (f1s : List ℚ)
    (hids : code2int.map Prod.snd = List.range code2int.length) :
    (writeResults code2int fmt macroF1 f1s).length = 1 + f1s.length
    ∧ (writeResults code2int fmt macroF1 f1s).head? =
        some ("macro".data ++ "|".data ++ fmt macroF1)
    ∧ (∀ i code f1i, (code, i) ∈ code2int → f1s.get? i = some f1i →
        (writeResults code2int fmt macroF1 f1s).get? (i + 1) =
          some (code ++ "|".data ++ fmt f1i)) := by
  have hnd : (code2int.map Prod.snd).Nodup := by
    rw [hids]
    exact List.nodup_range _
  have hinv := int2code_eq code2int hnd
  refine ⟨?_, rfl, ?_⟩
  · simp only [writeResults, List.length_cons, List.length_map, List.enum_length]
    omega
  · intro i code f1i hmem hf
    unfold writeResults
    rw [List.get?_cons_succ, List.get?_map, List.get?_enum, hf]
    simp only [Option.map_some']
    have hkeysnd : ((int2code code2int).map Prod.fst).Nodup := by
      rw [hinv]
      have : (code2int.map (fun p => (p.2, p.1))).map Prod.fst = code2int.map Prod.snd := by
        rw [List.map_map]
        rfl
      rw [this]
      exact hnd
    have hmem2 : (i, code) ∈ int2code code2int := by
      rw [hinv]
      exact List.mem_map.mpr ⟨(code, i), hmem, rfl⟩
    rw [mem_dictGet hkeysnd hmem2]
    rfl

theorem results_file_format_witness :
    (writeResults [("b".data, 0), ("a".data, 1)] (fun _ => "s".data) 1 [1, 0]).get? 1 =
      some ("b".data ++ "|".data ++ "s".data) :=
  (results_file_format [("b".data, 0), ("a".data, 1)] (fun _ => "s".data) 1 [1, 0]
    (by decide)).2.2 0 "b".data 1 (by decide) (by decide)
